import Mathlib

/-!
Verification of `jsonl/create_tsv_from_wmt24_esa.py` (wmt24-news-systems).

The script turns per-annotator ESA (error span annotation) records into one
TSV row per (doc_id, line_id, system) signature and per language pair.  We
embed the span-level helpers (`assert_span_type`, `correct_span`,
`is_invalid_span`) and the `main` pipeline (grouping, reference join,
per-signature deduplication, row construction, statistics) as executable
Lean functions and prove the specified properties about them.

Python-specific semantics is modelled explicitly:
- a span bound is an `int` or a `str` (`Bound`);
- `f"{v}"` stringification is `pyStr`;
- comparison of two strings is code-point lexicographic (`pyStrLt`);
- `s.split(c)` and `c.join(parts)` are `pySplit` and `pyJoin`;
- ordering an `int` against a `str` raises `TypeError`, and a failed
  `assert` raises `AssertionError`, so every function that can reach such
  an exception returns an `Option`, with `none` for the raised exception
  (a raise aborts the whole run before any output is written);
- a `collections.Counter` is a total function `String → Nat` defaulting
  to 0.
-/

namespace WMT24

/-- A Python value appearing as a span bound in the ESA jsonl data:
either an integer or a string (the sentinel is the string "missing"). -/
inductive Bound where
  | int : Int → Bound
  | str : String → Bound
deriving DecidableEq

/-- Python `f"{v}"` applied to a span bound: integers print in decimal,
strings print themselves. -/
def pyStr : Bound → String
  | .int i => toString i
  | .str s => s

/-- Python `<` on strings: lexicographic comparison by code point, over the
underlying character lists. -/
def charsLt : List Char → List Char → Bool
  | [], [] => false
  | [], _ :: _ => true
  | _ :: _, [] => false
  | a :: as, b :: bs =>
    if a.toNat < b.toNat then true
    else if b.toNat < a.toNat then false
    else charsLt as bs

/-- Python `s < t` for strings `s`, `t`. -/
def pyStrLt (s t : String) : Bool := charsLt s.data t.data

/-- Python `a > b` on two span bounds.  Comparing an `int` with a `str`
raises `TypeError`, modelled as `none`. -/
def pyGt : Bound → Bound → Option Bool
  | .int a, .int b => some (decide (b < a))
  | .str a, .str b => some (pyStrLt b a)
  | _, _ => none

/-- Python `s.split(sep)` for a single-character separator, over char
lists: `"".split(sep)` gives one empty part, and every occurrence of `sep`
starts a new part. -/
def splitChars (sep : Char) : List Char → List (List Char)
  | [] => [[]]
  | c :: cs =>
    if c = sep then [] :: splitChars sep cs
    else
      match splitChars sep cs with
      | [] => [[c]]
      | w :: ws => (c :: w) :: ws

/-- Python `s.split(sep)` for a single-character separator. -/
def pySplit (sep : Char) (s : String) : List String :=
  (splitChars sep s.data).map (fun cs => ⟨cs⟩)

/-- Python `sep.join(parts)` for a single-character separator, over char
lists. -/
def joinChars (sep : Char) : List (List Char) → List Char
  | [] => []
  | [w] => w
  | w :: w' :: ws => w ++ sep :: joinChars sep (w' :: ws)

/-- Python `sep.join(parts)` for a single-character separator. -/
def pyJoin (sep : Char) (parts : List String) : String :=
  ⟨joinChars sep (parts.map (fun p => p.data))⟩

/-- One entry of the `esa_spans` list of an input record. -/
structure ESASpan where
  start_i : Bound
  end_i : Bound
  severity : String
deriving DecidableEq

/-- Python `assert_span_type(esa_span)`: `true` iff all three asserts pass,
i.e. each bound is an integer or both bounds are the string "missing", and
the severity is major, minor or undecided.  (Python `==` between an `int`
and a `str` is `False`, which the match arms reflect.) -/
def assert_span_type (esa_span : ESASpan) : Bool :=
  (match esa_span.start_i with
   | .int _ => true
   | .str s => decide (s = "missing") &&
       (match esa_span.end_i with | .str t => decide (t = "missing") | .int _ => false))
  && (match esa_span.end_i with
      | .int _ => true
      | .str t => decide (t = "missing") &&
          (match esa_span.start_i with | .str s => decide (s = "missing") | .int _ => false))
  && decide (esa_span.severity ∈ (["major", "minor", "undecided"] : List String))

/-- Python `correct_span(error_span, hypothesis)`: deep-copies its argument,
rewrites severity critical→major, clamps integer bounds into
`[0, len(hypothesis)]` when both are integers, swaps the bounds when
`start_i > end_i`, and collapses `start_i == end_i` to the "missing"
sentinel.  The `start_i > end_i` comparison raises `TypeError` when one
bound is an integer and the other a string; that run is `none`. -/
def correct_span (error_span : ESASpan) (hypothesis : String) : Option ESASpan :=
  let sev := if error_span.severity = "critical" then "major" else error_span.severity
  let clamped : Bound × Bound :=
    match error_span.start_i, error_span.end_i with
    | .int a, .int b =>
        (.int (min (max 0 a) (hypothesis.length : Int)),
         .int (min (max 0 b) (hypothesis.length : Int)))
    | a, b => (a, b)
  match pyGt clamped.1 clamped.2 with
  | none => none
  | some gt =>
    let swapped := if gt then (clamped.2, clamped.1) else clamped
    if swapped.1 = swapped.2 then
      some ⟨.str "missing", .str "missing", sev⟩
    else
      some ⟨swapped.1, swapped.2, sev⟩

/-- The severity rewrite performed by `correct_span` (critical→major). -/
def pySeverity (sev : String) : String := if sev = "critical" then "major" else sev

/-- Python `is_invalid_span(error_span, hypothesis)`: a span is flagged
invalid if a bound is a string other than "missing", an integer bound is
outside `[0, len(hypothesis)]`, both bounds are integers with
`start_i > end_i`, or the severity is not major/minor/critical. -/
def is_invalid_span (error_span : ESASpan) (hypothesis : String) : Bool :=
  (match error_span.start_i with
   | .str s => decide (s ≠ "missing")
   | .int _ => false)
  || (match error_span.end_i with
      | .str s => decide (s ≠ "missing")
      | .int _ => false)
  || (match error_span.start_i with
      | .int i => decide (i < 0) || decide ((hypothesis.length : Int) < i)
      | .str _ => false)
  || (match error_span.end_i with
      | .int i => decide (i < 0) || decide ((hypothesis.length : Int) < i)
      | .str _ => false)
  || (match error_span.start_i, error_span.end_i with
      | .int a, .int b => decide (b < a)
      | _, _ => false)
  || decide (error_span.severity ∉ (["major", "minor", "critical"] : List String))

/-- One line of the input jsonl file (an AnnotationRecord). -/
structure Datum where
  src : String
  tgt : String
  langs : String
  doc_id : String
  line_id : String
  system : String
  domain : String
  esa_spans : List ESASpan
deriving DecidableEq

/-- Python `f"{datum['doc_id']}-{datum['line_id']}-{datum['system']}"`. -/
def signature (d : Datum) : String := d.doc_id ++ "-" ++ d.line_id ++ "-" ++ d.system

/-- A `collections.Counter`, read off as a total function with default 0. -/
abbrev Counter : Type := String → Nat

/-- An empty counter. -/
def czero : Counter := fun _ => 0

/-- Python `c[k] += 1`. -/
def cinc (c : Counter) (k : String) : Counter := fun x => if x = k then c x + 1 else c x

/-- Python `c[k] += n`. -/
def caddN (c : Counter) (k : String) (n : Nat) : Counter :=
  fun x => if x = k then c x + n else c x

/-- Pointwise sum of two counters. -/
def cadd (a b : Counter) : Counter := fun x => a x + b x

/-- One output row of the TSV (the values appended to the `data` columns
for a single emitted record). -/
structure Row where
  doc_id : String
  segment_id : String
  source_lang : String
  target_lang : String
  set_id : String
  system_id : String
  source_segment : String
  hypothesis_segment : String
  reference_segment : String
  domain_name : String
  method : String
  start_indices : String
  end_indices : String
  error_types : String
deriving DecidableEq

/-- One row of the external `google/wmt24pp` reference corpus:
(source, target, is_bad_source). -/
structure RefEntry where
  source : String
  target : String
  is_bad_source : Bool

/-- The `src_to_tgt` dict: built by iterating the corpus split, skipping
entries flagged as bad sources; a later entry overwrites an earlier one
(Python dict assignment). -/
def build_src_to_tgt (entries : List RefEntry) : String → Option String :=
  entries.foldl
    (fun m e =>
      if e.is_bad_source then m
      else fun s => if s = e.source then some e.target else m s)
    (fun _ => none)

/-- The fixed language-pair table `langs_to_wmt24pp_code`. -/
def langs_to_wmt24pp_code : List (String × String) :=
  [("en-cs", "en-cs_CZ"), ("en-ja", "en-ja_JP"), ("en-zh", "en-zh_CN"),
   ("en-is", "en-is_IS"), ("en-uk", "en-uk_UA"), ("en-ru", "en-ru_RU")]

/-- The per-language-pair signature groups (`langs_to_data[langs]`),
as an insertion-ordered association list. -/
abbrev SigGroups : Type := List (String × List Datum)

/-- The full grouping `langs_to_data`, as an insertion-ordered association
list of association lists. -/
abbrev LangsGroups : Type := List (String × SigGroups)

/-- Append `x` at the end of the list stored under `key`, creating the key
at the end on first use (a `defaultdict(list)` with dict insertion order). -/
def appendGroup {α : Type} : List (String × List α) → String → α → List (String × List α)
  | [], key, x => [(key, [x])]
  | (k, l) :: rest, key, x =>
    if k = key then (k, l ++ [x]) :: rest else (k, l) :: appendGroup rest key x

/-- Append `d` under `langs_to_data[langs][sig]`. -/
def appendGroup2 : LangsGroups → String → String → Datum → LangsGroups
  | [], langs, sig, d => [(langs, [(sig, [d])])]
  | (k, inner) :: rest, langs, sig, d =>
    if k = langs then (k, appendGroup inner sig d) :: rest
    else (k, inner) :: appendGroup2 rest langs sig d

/-- The ingestion loop of `main`: for each record, assert the source is
nonempty (`none` on failure), skip records with empty target (counting
them), and group the rest by language pair and signature. -/
def groupAux : List Datum → LangsGroups → Nat → Option (LangsGroups × Nat)
  | [], gs, cnt => some (gs, cnt)
  | d :: rest, gs, cnt =>
    if d.src.length = 0 then none
    else if d.tgt.length = 0 then groupAux rest gs (cnt + 1)
    else groupAux rest (appendGroup2 gs d.langs (signature d) d) cnt

/-- The ingestion stage: grouping plus the value of
`log_counter["target segment is empty"]`. -/
def groupStage (input : List Datum) : Option (LangsGroups × Nat) := groupAux input [] 0

/-- The body of the `for esa_span in datum["esa_spans"]` loop: each span is
first type-asserted (`none` models the `AssertionError`), then — when
filtering is enabled — checked for validity (an invalid span sets
`has_invalid_span` and breaks out, returning flag `true`); a surviving span
contributes its stringified raw bounds and severity to the three token
lists and bumps `esa_counter` under "missing" (zero length) or its
severity.  Flag `false` means the loop ran to completion. -/
def spanLoop (filter_flag : Bool) (tgt : String) :
    List ESASpan → List String × List String × List String × Counter →
    Option (Bool × List String × List String × List String × Counter)
  | [], (ss, es, ts, c) => some (false, ss, es, ts, c)
  | sp :: rest, (ss, es, ts, c) =>
    if assert_span_type sp then
      if filter_flag && is_invalid_span sp tgt then
        some (true, ss, es, ts, c)
      else
        spanLoop filter_flag tgt rest
          (ss ++ [pyStr sp.start_i], es ++ [pyStr sp.end_i], ts ++ [sp.severity],
           cinc c (if sp.start_i = sp.end_i then "missing" else sp.severity))
    else none

/-- What processing one record of a signature group can produce:
no reference for its source, an invalid-span skip, or an emitted row
(together with its `error_types` token list and its `esa_counter`). -/
inductive DatumResult where
  | noRef : DatumResult
  | invalidSkip : DatumResult
  | emitted : Row → List String → Counter → DatumResult

/-- Processing of a single record inside the signature loop: reference
lookup, the span loop, the no-span sentinel entries, and row construction
(including the `source_lang, target_lang = datum["langs"].split("-")`
unpacking, which raises — `none` — unless the split has exactly two
parts). -/
def processDatum (filter_flag : Bool) (src_to_tgt : String → Option String) (d : Datum) :
    Option DatumResult :=
  match src_to_tgt d.src with
  | none => some .noRef
  | some ref =>
    match spanLoop filter_flag d.tgt d.esa_spans ([], [], [], czero) with
    | none => none
    | some (true, _, _, _, _) => some .invalidSkip
    | some (false, ss, es, ts, c) =>
      let triple :=
        if ss.length = 0 then (ss ++ ["-1"], es ++ ["-1"], ts ++ ["no-error"])
        else (ss, es, ts)
      match pySplit '-' d.langs with
      | [source_lang, target_lang] =>
        some (.emitted
          ⟨d.doc_id, d.line_id, source_lang, target_lang, "official", d.system,
           d.src, d.tgt, ref, d.domain, "ESA",
           pyJoin ' ' triple.1, pyJoin ' ' triple.2.1, pyJoin ' ' triple.2.2⟩
          triple.2.2 c)
      | _ => none

/-- The `langs_to_statistics[langs]` updates executed right after a row is
appended: bump "no-error" when the first error-type token is the sentinel,
then add the "major", "minor" and "missing" entries of `esa_counter`. -/
def emitStats (stats : Counter) (error_types : List String) (esa_counter : Counter) : Counter :=
  let stats := if error_types.headD "" = "no-error" then cinc stats "no-error" else stats
  let stats := caddN stats "major" (esa_counter "major")
  let stats := caddN stats "minor" (esa_counter "minor")
  caddN stats "missing" (esa_counter "missing")

/-- The `for datum in langs_to_data[langs][signature]` loop: records
without a reference are skipped silently, invalid-span records are skipped
and counted (`log_counter["skip_datum_with_invalid_span"]`), and the first
record that survives is emitted, after which the loop breaks.  Returns the
emission (if any) and the number of invalid-span skips performed. -/
def processSignatureList (filter_flag : Bool) (src_to_tgt : String → Option String) :
    List Datum → Option (Option (Row × List String × Counter) × Nat)
  | [] => some (none, 0)
  | d :: rest =>
    match processDatum filter_flag src_to_tgt d with
    | none => none
    | some .noRef =>
      match processSignatureList filter_flag src_to_tgt rest with
      | none => none
      | some (r, k) => some (r, k)
    | some .invalidSkip =>
      match processSignatureList filter_flag src_to_tgt rest with
      | none => none
      | some (r, k) => some (r, k + 1)
    | some (.emitted row ts c) => some (some (row, ts, c), 0)

/-- The result of processing one language pair: its rows (in signature
order), its `langs_to_statistics[langs]` counter, `num_langs_data`, and its
contribution to `log_counter["skip_datum_with_invalid_span"]`. -/
structure LangsResult where
  rows : List Row
  stats : Counter
  num_data : Nat
  invalid_skips : Nat

/-- The `for signature in langs_to_data[langs]` loop.  Counters accumulate
additively, so the per-emission statistics deltas are summed with `cadd`
(pointwise equal to the sequential `+=` updates of the script). -/
def processSignatures (filter_flag : Bool) (src_to_tgt : String → Option String) :
    SigGroups → Option LangsResult
  | [] => some ⟨[], czero, 0, 0⟩
  | (_, group) :: rest =>
    match processSignatureList filter_flag src_to_tgt group with
    | none => none
    | some (emit, skips) =>
      match processSignatures filter_flag src_to_tgt rest with
      | none => none
      | some r =>
        match emit with
        | none => some ⟨r.rows, r.stats, r.num_data, skips + r.invalid_skips⟩
        | some (row, ts, c) =>
          some ⟨row :: r.rows, cadd (emitStats czero ts c) r.stats,
                r.num_data + 1, skips + r.invalid_skips⟩

/-- Everything `main` produces that the output and the log lines observe. -/
structure MainOut where
  rows : List Row
  langs_stats : List (String × Counter)
  empty_target_skips : Nat
  invalid_span_skips : Nat
  skipped_valid_signatures : Nat

/-- The `for langs in langs_to_data` loop: language pairs without a
`langs_to_wmt24pp_code` entry are skipped, otherwise the reference lookup
is built from the external corpus (a parameter, keyed by the wmt24pp code)
and the signature groups are processed. -/
def processAllLangs (filter_flag : Bool) (corpus : String → List RefEntry) :
    LangsGroups → Option (List Row × List (String × Counter) × Nat × Nat)
  | [] => some ([], [], 0, 0)
  | (langs, sigGroups) :: rest =>
    match langs_to_wmt24pp_code.lookup langs with
    | none => processAllLangs filter_flag corpus rest
    | some code =>
      match processSignatures filter_flag (build_src_to_tgt (corpus code)) sigGroups with
      | none => none
      | some r =>
        match processAllLangs filter_flag corpus rest with
        | none => none
        | some (rows, stats, inv, skipped) =>
          some (r.rows ++ rows, (langs, r.stats) :: stats, r.invalid_skips + inv,
                (sigGroups.length - r.num_data) + skipped)

/-- Python `main(...)`: the whole pipeline, parameterized by the external
reference corpus.  `none` models an uncaught exception (a failed assert or
a failed unpacking), in which case nothing is written. -/
def mainRun (filter_flag : Bool) (corpus : String → List RefEntry) (input : List Datum) :
    Option MainOut :=
  match groupStage input with
  | none => none
  | some (gs, emptyCnt) =>
    match processAllLangs filter_flag corpus gs with
    | none => none
    | some (rows, stats, inv, skipped) => some ⟨rows, stats, emptyCnt, inv, skipped⟩

/-- The invalidity condition as the spec words it, for comparison with
`is_invalid_span`. -/
def invalid_span_spec (sp : ESASpan) (hypothesis : String) : Prop :=
  (∃ s, sp.start_i = .str s ∧ s ≠ "missing")
  ∨ (∃ s, sp.end_i = .str s ∧ s ≠ "missing")
  ∨ (∃ i, sp.start_i = .int i ∧ (i < 0 ∨ (hypothesis.length : Int) < i))
  ∨ (∃ i, sp.end_i = .int i ∧ (i < 0 ∨ (hypothesis.length : Int) < i))
  ∨ (∃ a b, sp.start_i = .int a ∧ sp.end_i = .int b ∧ b < a)
  ∨ sp.severity ∉ (["major", "minor", "critical"] : List String)

/-- A record qualifies for emission within its signature group: its source
has a reference, and — when filtering is enabled — none of its spans is
invalid. -/
def qualB (filter_flag : Bool) (src_to_tgt : String → Option String) (d : Datum) : Bool :=
  (src_to_tgt d.src).isSome &&
    (!filter_flag || d.esa_spans.all (fun sp => !is_invalid_span sp d.tgt))

/-- The signature recoverable from an output row. -/
def rowSig (r : Row) : String := r.doc_id ++ "-" ++ r.segment_id ++ "-" ++ r.system_id

/-- The language pair recoverable from an output row. -/
def rowLangs (r : Row) : String := r.source_lang ++ "-" ++ r.target_lang

/-- The three token lists of an emitted record before the no-span sentinel
is applied: the stringified raw bounds and raw severities of its spans. -/
def rawTriple (d : Datum) : List String × List String × List String :=
  (d.esa_spans.map (fun sp => pyStr sp.start_i),
   d.esa_spans.map (fun sp => pyStr sp.end_i),
   d.esa_spans.map (fun sp => sp.severity))

/-- The three token lists of an emitted record, sentinel included. -/
def finalTriple (d : Datum) : List String × List String × List String :=
  if d.esa_spans = [] then (["-1"], ["-1"], ["no-error"]) else rawTriple d

/-- Membership of a record somewhere in the two-level grouping. -/
def memGroups (x : Datum) (gs : LangsGroups) : Prop :=
  ∃ p ∈ gs, ∃ q ∈ p.2, x ∈ q.2

/-- Well-formedness of the two-level grouping: keys are distinct at both
levels and every stored record carries its keys. -/
def groupsWF (gs : LangsGroups) : Prop :=
  (gs.map Prod.fst).Nodup ∧
  ∀ p ∈ gs, (p.2.map Prod.fst).Nodup ∧
    ∀ q ∈ p.2, ∀ d ∈ q.2, d.langs = p.1 ∧ signature d = q.1

/-- Fixture: a record with one reversed, out-of-range span (filter off). -/
def wRawDatum : Datum :=
  ⟨"s1", "ab", "en-cs", "D", "1", "sysA", "news", [⟨.int 5, .int 3, "major"⟩]⟩

/-- Fixture: the row the pipeline emits for `wRawDatum`. -/
def wRawRow : Row :=
  ⟨"D", "1", "en", "cs", "official", "sysA", "s1", "ab", "ref1", "news", "ESA",
   "5", "3", "major"⟩

/-- Fixture: a lookup defined only at the source text "s1". -/
def wLookup : String → Option String := fun s => if s = "s1" then some "ref1" else none

/-- Fixture (scenario D): first record of a signature, with an unjoinable
source text. -/
def wNoRefDatum : Datum :=
  ⟨"zz", "ab", "en-cs", "D", "1", "sysA", "news", []⟩

/-- Fixture: a record with no spans (the no-error sentinel case). -/
def wEmptySpansDatum : Datum :=
  ⟨"s1", "ab", "en-cs", "D", "1", "sysA", "news", []⟩

/-- Fixture: the sentinel row the pipeline emits for `wEmptySpansDatum`. -/
def wEmptySpansRow : Row :=
  ⟨"D", "1", "en", "cs", "official", "sysA", "s1", "ab", "ref1", "news", "ESA",
   "-1", "-1", "no-error"⟩

/-- Fixture: a record with empty target text. -/
def wEmptyTgtDatum : Datum :=
  ⟨"s2", "", "en-cs", "D", "2", "sysA", "news", []⟩

/-! Order lemmas for the Python string comparison. -/

theorem charsLt_irrefl (l : List Char) : charsLt l l = false := by
  induction l with
  | nil => rfl
  | cons c cs ih => simp [charsLt, ih]

theorem charsLt_asymm (l m : List Char) (h : charsLt l m = true) : charsLt m l = false := by
  induction l generalizing m with
  | nil =>
    cases m with
    | nil => simp [charsLt]
    | cons d ds => simp [charsLt]
  | cons c cs ih =>
    cases m with
    | nil => simp [charsLt] at h
    | cons d ds =>
      simp only [charsLt] at h ⊢
      split_ifs at h ⊢ <;> first | rfl | omega | exact ih ds h

theorem pyStrLt_irrefl (s : String) : pyStrLt s s = false := charsLt_irrefl s.data

theorem pyStrLt_asymm (s t : String) (h : pyStrLt s t = true) : pyStrLt t s = false :=
  charsLt_asymm s.data t.data h

/-! Shape lemmas for `correct_span` and `pySeverity`. -/

theorem pySeverity_idem (sev : String) : pySeverity (pySeverity sev) = pySeverity sev := by
  unfold pySeverity
  by_cases h : sev = "critical" <;> simp [h]

theorem pySeverity_ne_critical (sev : String) : pySeverity sev ≠ "critical" := by
  unfold pySeverity
  by_cases h : sev = "critical" <;> simp [h]

theorem correct_span_int_cases (a b : Int) (sev hypothesis : String) :
    (∃ x y : Int, correct_span ⟨.int a, .int b, sev⟩ hypothesis =
        some ⟨.int x, .int y, pySeverity sev⟩ ∧
        0 ≤ x ∧ x < y ∧ y ≤ (hypothesis.length : Int))
    ∨ correct_span ⟨.int a, .int b, sev⟩ hypothesis =
        some ⟨.str "missing", .str "missing", pySeverity sev⟩ := by
  simp only [correct_span, pyGt, pySeverity]
  by_cases h1 : (0 ⊔ b) ⊓ (hypothesis.length : Int) < (0 ⊔ a) ⊓ (hypothesis.length : Int) <;>
    by_cases h2 : (0 ⊔ b) ⊓ (hypothesis.length : Int) = (0 ⊔ a) ⊓ (hypothesis.length : Int)
  · omega
  · left
    refine ⟨(0 ⊔ b) ⊓ (hypothesis.length : Int), (0 ⊔ a) ⊓ (hypothesis.length : Int),
      ?_, ?_, ?_, ?_⟩
    · simp [h1, h2]
    · omega
    · omega
    · omega
  · right
    simp [h1, h2]
  · left
    refine ⟨(0 ⊔ a) ⊓ (hypothesis.length : Int), (0 ⊔ b) ⊓ (hypothesis.length : Int),
      ?_, ?_, ?_, ?_⟩
    · have h2' : (0 ⊔ a) ⊓ (hypothesis.length : Int) ≠ (0 ⊔ b) ⊓ (hypothesis.length : Int) :=
        fun h => h2 h.symm
      simp [h1, h2']
    · omega
    · omega
    · omega

theorem correct_span_str_cases (x y : String) (sev hypothesis : String) :
    (∃ u v : String, correct_span ⟨.str x, .str y, sev⟩ hypothesis =
        some ⟨.str u, .str v, pySeverity sev⟩ ∧ pyStrLt v u = false ∧ u ≠ v)
    ∨ correct_span ⟨.str x, .str y, sev⟩ hypothesis =
        some ⟨.str "missing", .str "missing", pySeverity sev⟩ := by
  simp only [correct_span, pyGt, pySeverity]
  by_cases h1 : pyStrLt y x = true
  · by_cases h2 : y = x
    · subst h2
      rw [pyStrLt_irrefl] at h1
      exact absurd h1 (by simp)
    · left
      exact ⟨y, x, by simp [h1, h2], pyStrLt_asymm y x h1, h2⟩
  · rw [Bool.not_eq_true] at h1
    by_cases h2 : x = y
    · right
      simp [h1, h2]
    · left
      exact ⟨x, y, by simp [h1, h2], h1, h2⟩

theorem correct_span_mixed (a : Int) (s : String) (sev hypothesis : String) :
    correct_span ⟨.int a, .str s, sev⟩ hypothesis = none ∧
    correct_span ⟨.str s, .int a, sev⟩ hypothesis = none := by
  constructor <;> simp [correct_span, pyGt]

theorem correct_span_severity (sp t : ESASpan) (hypothesis : String)
    (h : correct_span sp hypothesis = some t) : t.severity = pySeverity sp.severity := by
  obtain ⟨si, ei, sev⟩ := sp
  cases si with
  | int a =>
    cases ei with
    | int b =>
      rcases correct_span_int_cases a b sev hypothesis with ⟨x, y, heq, _⟩ | heq <;>
        · rw [h] at heq
          obtain rfl := Option.some_inj.mp heq
          rfl
    | str s =>
      rw [(correct_span_mixed a s sev hypothesis).1] at h
      exact absurd h (by simp)
  | str s =>
    cases ei with
    | int b =>
      rw [(correct_span_mixed b s sev hypothesis).2] at h
      exact absurd h (by simp)
    | str y =>
      rcases correct_span_str_cases s y sev hypothesis with ⟨u, v, heq, _⟩ | heq <;>
        · rw [h] at heq
          obtain rfl := Option.some_inj.mp heq
          rfl

/-! Claim theorems about the span-level functions. -/

/-- C2.  The validity checker flags a span as invalid exactly when one of
the spec's conditions holds: a bound is a string other than "missing", an
integer bound falls outside `[0, len(hypothesis)]`, both bounds are
integers with start greater than end, or the severity is not one of major,
minor, critical.  In particular a span with severity "undecided" is
classified invalid. -/
theorem is_invalid_span_characterization (sp : ESASpan) (hypothesis : String) :
    (is_invalid_span sp hypothesis = true ↔ invalid_span_spec sp hypothesis) ∧
    (sp.severity = "undecided" → is_invalid_span sp hypothesis = true) := by
  constructor
  · obtain ⟨si, ei, sev⟩ := sp
    cases si <;> cases ei <;>
      simp [is_invalid_span, invalid_span_spec] <;> tauto
  · intro h
    obtain ⟨si, ei, sev⟩ := sp
    simp only at h
    subst h
    cases si <;> cases ei <;> simp [is_invalid_span]

/-- Witness for C2: a span with severity "undecided" is invalid on a
concrete input. -/
theorem is_invalid_span_characterization_witness :
    is_invalid_span ⟨.int 0, .int 1, "undecided"⟩ "ab" = true :=
  (is_invalid_span_characterization ⟨.int 0, .int 1, "undecided"⟩ "ab").2 rfl

/-- C3.  For every span whose bounds are both integers and every
hypothesis, `correct_span` succeeds and returns either integer bounds with
`0 ≤ start ≤ end ≤ len(hypothesis)` or the "missing"/"missing" sentinel
pair. -/
theorem correct_span_int_bounds_normalized (a b : Int) (sev hypothesis : String) :
    ∃ t, correct_span ⟨.int a, .int b, sev⟩ hypothesis = some t ∧
      ((∃ s e : Int, t.start_i = .int s ∧ t.end_i = .int e ∧
          0 ≤ s ∧ s ≤ e ∧ e ≤ (hypothesis.length : Int))
       ∨ (t.start_i = .str "missing" ∧ t.end_i = .str "missing")) := by
  rcases correct_span_int_cases a b sev hypothesis with ⟨x, y, heq, hx, hxy, hy⟩ | heq
  · exact ⟨_, heq, Or.inl ⟨x, y, rfl, rfl, hx, le_of_lt hxy, hy⟩⟩
  · exact ⟨_, heq, Or.inr ⟨rfl, rfl⟩⟩

/-- Counterexample for C4: on a degenerate span with one integer bound and
one string bound, `correct_span` does not return a span — the Python
`start_i > end_i` comparison raises `TypeError`. -/
theorem correct_span_mixed_bound_raises :
    correct_span ⟨.int 0, .str "missing", "minor"⟩ "ab" = none := rfl

/-- C4 (amended).  `correct_span` returns a span exactly when its two
bounds are of the same kind (both integers or both strings); on mixed
bounds the run raises.  (That the input span is not modified is inherent
in the embedding: the Python function deep-copies its argument first.) -/
theorem correct_span_total_iff (sp : ESASpan) (hypothesis : String) :
    (correct_span sp hypothesis).isSome = true ↔
      ((∃ a b : Int, sp.start_i = .int a ∧ sp.end_i = .int b)
       ∨ (∃ x y : String, sp.start_i = .str x ∧ sp.end_i = .str y)) := by
  obtain ⟨si, ei, sev⟩ := sp
  cases si with
  | int a =>
    cases ei with
    | int b =>
      rcases correct_span_int_cases a b sev hypothesis with ⟨x, y, heq, _⟩ | heq <;>
        simp [heq]
    | str s =>
      simp [(correct_span_mixed a s sev hypothesis).1]
  | str s =>
    cases ei with
    | int b =>
      simp [(correct_span_mixed b s sev hypothesis).2]
    | str y =>
      rcases correct_span_str_cases s y sev hypothesis with ⟨u, v, heq, _⟩ | heq <;>
        simp [heq]

/-- C10.  The normalizer is idempotent wherever it is defined: if
`correct_span` maps `sp` to `t`, then it maps `t` to `t`. -/
theorem correct_span_idempotent (sp t : ESASpan) (hypothesis : String)
    (h : correct_span sp hypothesis = some t) :
    correct_span t hypothesis = some t := by
  obtain ⟨si, ei, sev⟩ := sp
  cases si with
  | int a =>
    cases ei with
    | int b =>
      rcases correct_span_int_cases a b sev hypothesis with ⟨x, y, heq, hx, hxy, hy⟩ | heq
      · rw [h] at heq
        obtain rfl := Option.some_inj.mp heq
        have h4 : x ≠ y := ne_of_lt hxy
        have h5 : ¬ (y < x) := by omega
        have e1 : (0 ⊔ x) ⊓ (hypothesis.length : Int) = x := by omega
        have e2 : (0 ⊔ y) ⊓ (hypothesis.length : Int) = y := by omega
        have hps : (if pySeverity sev = "critical" then "major" else pySeverity sev) =
            pySeverity sev := pySeverity_idem sev
        simp [correct_span, pyGt, e1, e2, h5, h4, hps]
      · rw [h] at heq
        obtain rfl := Option.some_inj.mp heq
        have hps : (if pySeverity sev = "critical" then "major" else pySeverity sev) =
            pySeverity sev := pySeverity_idem sev
        simp [correct_span, pyGt, pyStrLt_irrefl, hps]
    | str s =>
      rw [(correct_span_mixed a s sev hypothesis).1] at h
      exact absurd h (by simp)
  | str s =>
    cases ei with
    | int b =>
      rw [(correct_span_mixed b s sev hypothesis).2] at h
      exact absurd h (by simp)
    | str y =>
      rcases correct_span_str_cases s y sev hypothesis with ⟨u, v, heq, huv, hne⟩ | heq
      · rw [h] at heq
        obtain rfl := Option.some_inj.mp heq
        have hps : (if pySeverity sev = "critical" then "major" else pySeverity sev) =
            pySeverity sev := pySeverity_idem sev
        simp [correct_span, pyGt, huv, hne, hps]
      · rw [h] at heq
        obtain rfl := Option.some_inj.mp heq
        have hps : (if pySeverity sev = "critical" then "major" else pySeverity sev) =
            pySeverity sev := pySeverity_idem sev
        simp [correct_span, pyGt, pyStrLt_irrefl, hps]

/-- Witness for C10: normalizing the already-normalized span of scenario A
is a fixed point. -/
theorem correct_span_idempotent_witness :
    correct_span ⟨.int 3, .int 5, "major"⟩ "0123456789" =
      some ⟨.int 3, .int 5, "major"⟩ :=
  correct_span_idempotent ⟨.int 5, .int 3, "critical"⟩ ⟨.int 3, .int 5, "major"⟩
    "0123456789" rfl

end WMT24

namespace WMT24

theorem splitChars_ne_nil (sep : Char) (l : List Char) : splitChars sep l ≠ [] := by
  cases l with
  | nil => simp [splitChars]
  | cons c cs =>
    simp only [splitChars]
    split
    · simp
    · split
      · simp
      · simp

theorem joinChars_splitChars (sep : Char) (l : List Char) :
    joinChars sep (splitChars sep l) = l := by
  induction l with
  | nil => rfl
  | cons c cs ih =>
    simp only [splitChars]
    split
    · rename_i hc
      subst hc
      rcases hw : splitChars c cs with _ | ⟨w, ws⟩
      · exact absurd hw (splitChars_ne_nil c cs)
      · rw [hw] at ih
        simp only [joinChars]
        rw [ih]
        rfl
    · rcases hw : splitChars sep cs with _ | ⟨w, ws⟩
      · exact absurd hw (splitChars_ne_nil sep cs)
      · rw [hw] at ih
        cases ws with
        | nil =>
          simp only [joinChars] at ih ⊢
          rw [ih]
        | cons w' ws' =>
          simp only [joinChars] at ih ⊢
          rw [List.cons_append, ih]

theorem splitChars_no_sep (sep : Char) (w : List Char) (h : sep ∉ w) :
    splitChars sep w = [w] := by
  induction w with
  | nil => rfl
  | cons c cs ih =>
    simp only [List.mem_cons, not_or] at h
    simp only [splitChars]
    rw [if_neg (fun hc => h.1 hc.symm)]
    rw [ih h.2]

theorem splitChars_append_sep (sep : Char) (w t : List Char) (h : sep ∉ w) :
    splitChars sep (w ++ sep :: t) = w :: splitChars sep t := by
  induction w with
  | nil => simp [splitChars]
  | cons c cs ih =>
    simp only [List.mem_cons, not_or] at h
    simp only [List.cons_append, splitChars, List.append_eq]
    rw [if_neg (fun hc => h.1 hc.symm)]
    rw [ih h.2]

theorem splitChars_joinChars (sep : Char) (ws : List (List Char))
    (hne : ws ≠ []) (h : ∀ w ∈ ws, sep ∉ w) :
    splitChars sep (joinChars sep ws) = ws := by
  induction ws with
  | nil => exact absurd rfl hne
  | cons w rest ih =>
    cases rest with
    | nil =>
      simp only [joinChars]
      exact splitChars_no_sep sep w (h w (by simp))
    | cons w' rest' =>
      simp only [joinChars]
      rw [splitChars_append_sep sep w _ (h w (by simp))]
      rw [ih (by simp) (fun x hx => h x (List.mem_cons_of_mem w hx))]


theorem digitChar_ne_space (n : Nat) : Nat.digitChar n ≠ ' ' := by
  by_cases h0 : n = 0
  · subst h0; decide
  by_cases h1 : n = 1
  · subst h1; decide
  by_cases h2 : n = 2
  · subst h2; decide
  by_cases h3 : n = 3
  · subst h3; decide
  by_cases h4 : n = 4
  · subst h4; decide
  by_cases h5 : n = 5
  · subst h5; decide
  by_cases h6 : n = 6
  · subst h6; decide
  by_cases h7 : n = 7
  · subst h7; decide
  by_cases h8 : n = 8
  · subst h8; decide
  by_cases h9 : n = 9
  · subst h9; decide
  by_cases h10 : n = 10
  · subst h10; decide
  by_cases h11 : n = 11
  · subst h11; decide
  by_cases h12 : n = 12
  · subst h12; decide
  by_cases h13 : n = 13
  · subst h13; decide
  by_cases h14 : n = 14
  · subst h14; decide
  by_cases h15 : n = 15
  · subst h15; decide
  unfold Nat.digitChar
  rw [if_neg h0, if_neg h1, if_neg h2, if_neg h3, if_neg h4, if_neg h5, if_neg h6, if_neg h7, if_neg h8, if_neg h9, if_neg h10, if_neg h11, if_neg h12, if_neg h13, if_neg h14, if_neg h15]
  decide

theorem toDigitsCore_ne_space (fuel n : Nat) (ds : List Char) (h : ∀ c ∈ ds, c ≠ ' ') :
    ∀ c ∈ Nat.toDigitsCore 10 fuel n ds, c ≠ ' ' := by
  induction fuel generalizing n ds with
  | zero => simpa [Nat.toDigitsCore] using h
  | succ fuel ih =>
    simp only [Nat.toDigitsCore]
    split
    · intro c hc
      rcases List.mem_cons.mp hc with rfl | hc
      · exact digitChar_ne_space _
      · exact h c hc
    · refine ih _ _ ?_
      intro c hc
      rcases List.mem_cons.mp hc with rfl | hc
      · exact digitChar_ne_space _
      · exact h c hc

theorem natRepr_no_space (n : Nat) : ' ' ∉ (Nat.repr n).data := by
  intro hmem
  have h2 : ∀ c ∈ (Nat.toDigits 10 n), c ≠ ' ' :=
    toDigitsCore_ne_space (n + 1) n [] (by simp)
  exact h2 ' ' hmem rfl

theorem intToString_no_space (i : Int) : ' ' ∉ (toString i).data := by
  cases i with
  | ofNat m => exact natRepr_no_space m
  | negSucc m =>
    show ' ' ∉ ("-" ++ Nat.repr (m + 1)).data
    rw [String.data_append]
    intro hmem
    rcases List.mem_append.mp hmem with hl | hr
    · simp at hl
    · exact natRepr_no_space (m + 1) hr


theorem pySplit_pyJoin (sep : Char) (parts : List String) (hne : parts ≠ [])
    (h : ∀ p ∈ parts, sep ∉ p.data) : pySplit sep (pyJoin sep parts) = parts := by
  unfold pySplit pyJoin
  rw [show (String.mk (joinChars sep (parts.map (fun p => p.data)))).data =
      joinChars sep (parts.map (fun p => p.data)) from rfl]
  rw [splitChars_joinChars sep _ (by simpa using hne)
      (fun w hw => by
        obtain ⟨p, hp, rfl⟩ := List.mem_map.mp hw
        exact h p hp)]
  rw [List.map_map]
  have hid : ((fun cs => (⟨cs⟩ : String)) ∘ fun (p : String) => p.data) = id :=
    funext fun p => rfl
  rw [hid, List.map_id]

theorem pySplit_two (sep : Char) (s a b : String) (h : pySplit sep s = [a, b]) :
    s = a ++ (⟨[sep]⟩ : String) ++ b := by
  unfold pySplit at h
  have hdata : splitChars sep s.data = [a.data, b.data] := by
    rcases hw : splitChars sep s.data with _ | ⟨w1, ws⟩
    · exact absurd hw (splitChars_ne_nil sep s.data)
    · rw [hw] at h
      cases ws with
      | nil => simp at h
      | cons w2 ws' =>
        cases ws' with
        | nil =>
          simp only [List.map_cons, List.map_nil, List.cons.injEq, and_true] at h
          obtain ⟨h1, h2⟩ := h
          subst h1
          subst h2
          rfl
        | cons w3 ws'' => simp at h
  apply String.ext
  have hj := joinChars_splitChars sep s.data
  rw [hdata] at hj
  simp only [joinChars] at hj
  rw [String.data_append, String.data_append]
  rw [← hj]
  simp

theorem assert_span_type_severity (sp : ESASpan) (h : assert_span_type sp = true) :
    sp.severity = "major" ∨ sp.severity = "minor" ∨ sp.severity = "undecided" := by
  obtain ⟨si, ei, sev⟩ := sp
  simp only [assert_span_type, Bool.and_eq_true, decide_eq_true_eq] at h
  simpa using h.2

theorem assert_span_type_bounds (sp : ESASpan) (h : assert_span_type sp = true) :
    ((∃ i, sp.start_i = .int i) ∨ sp.start_i = .str "missing") ∧
    ((∃ i, sp.end_i = .int i) ∨ sp.end_i = .str "missing") := by
  obtain ⟨si, ei, sev⟩ := sp
  cases si <;> cases ei <;> simp_all [assert_span_type]

theorem pyStr_no_space (b : Bound) (h : (∃ i, b = .int i) ∨ b = .str "missing") :
    ' ' ∉ (pyStr b).data := by
  rcases h with ⟨i, rfl⟩ | rfl
  · exact intToString_no_space i
  · decide

end WMT24

namespace WMT24

theorem spanLoop_false (f : Bool) (tgt : String) (spans : List ESASpan)
    (ss es ts : List String) (c : Counter) (ss' es' ts' : List String) (c' : Counter)
    (h : spanLoop f tgt spans (ss, es, ts, c) = some (false, ss', es', ts', c')) :
    ss' = ss ++ spans.map (fun sp => pyStr sp.start_i) ∧
    es' = es ++ spans.map (fun sp => pyStr sp.end_i) ∧
    ts' = ts ++ spans.map (fun sp => sp.severity) ∧
    (∀ sp ∈ spans, assert_span_type sp = true) ∧
    (∀ sp ∈ spans, (f && is_invalid_span sp tgt) = false) := by
  induction spans generalizing ss es ts c with
  | nil =>
    simp only [spanLoop, Option.some_inj, Prod.mk.injEq] at h
    obtain ⟨-, h1, h2, h3, -⟩ := h
    simp [h1, h2, h3]
  | cons sp rest ih =>
    simp only [spanLoop] at h
    by_cases ha : assert_span_type sp
    · rw [if_pos ha] at h
      by_cases hf : (f && is_invalid_span sp tgt) = true
      · rw [if_pos hf] at h
        simp at h
      · rw [if_neg hf] at h
        obtain ⟨e1, e2, e3, h4, h5⟩ := ih _ _ _ _ h
        refine ⟨?_, ?_, ?_, ?_, ?_⟩
        · rw [e1]; simp
        · rw [e2]; simp
        · rw [e3]; simp
        · intro x hx
          rcases List.mem_cons.mp hx with rfl | hx
          · exact ha
          · exact h4 x hx
        · intro x hx
          rcases List.mem_cons.mp hx with rfl | hx
          · exact Bool.not_eq_true _ ▸ hf
          · exact h5 x hx
    · rw [if_neg ha] at h
      simp at h

theorem spanLoop_true (f : Bool) (tgt : String) (spans : List ESASpan)
    (ss es ts : List String) (c : Counter) (ss' es' ts' : List String) (c' : Counter)
    (h : spanLoop f tgt spans (ss, es, ts, c) = some (true, ss', es', ts', c')) :
    f = true ∧ ∃ sp ∈ spans, is_invalid_span sp tgt = true := by
  induction spans generalizing ss es ts c with
  | nil => simp [spanLoop] at h
  | cons sp rest ih =>
    simp only [spanLoop] at h
    by_cases ha : assert_span_type sp
    · rw [if_pos ha] at h
      by_cases hf : (f && is_invalid_span sp tgt) = true
      · rcases Bool.and_eq_true_iff.mp hf with ⟨hf1, hf2⟩
        exact ⟨hf1, sp, by simp, hf2⟩
      · rw [if_neg hf] at h
        obtain ⟨h1, sp', hsp', h2⟩ := ih _ _ _ _ h
        exact ⟨h1, sp', List.mem_cons_of_mem _ hsp', h2⟩
    · rw [if_neg ha] at h
      simp at h

theorem processDatum_noRef (f : Bool) (s2t : String → Option String) (d : Datum)
    (h : processDatum f s2t d = some .noRef) : s2t d.src = none := by
  unfold processDatum at h
  rcases hs : s2t d.src with - | ref
  · rfl
  · rw [hs] at h
    rcases hl : spanLoop f d.tgt d.esa_spans ([], [], [], czero) with - | ⟨flag, ss, es, ts, c⟩
    · rw [hl] at h
      simp at h
    · rw [hl] at h
      cases flag
      · simp only at h
        rcases hsp : pySplit '-' d.langs with - | ⟨sl, rest⟩
        · rw [hsp] at h
          simp at h
        · rcases rest with - | ⟨tl, rest2⟩
          · rw [hsp] at h
            simp at h
          · rcases rest2 with - | ⟨x, r3⟩ <;> rw [hsp] at h <;> simp at h
      · simp at h

theorem processDatum_invalidSkip (f : Bool) (s2t : String → Option String) (d : Datum)
    (h : processDatum f s2t d = some .invalidSkip) :
    f = true ∧ ∃ sp ∈ d.esa_spans, is_invalid_span sp d.tgt = true := by
  unfold processDatum at h
  rcases hs : s2t d.src with - | ref
  · rw [hs] at h
    simp at h
  · rw [hs] at h
    rcases hl : spanLoop f d.tgt d.esa_spans ([], [], [], czero) with - | ⟨flag, ss, es, ts, c⟩
    · rw [hl] at h
      simp at h
    · rw [hl] at h
      cases flag
      · simp only at h
        rcases hsp : pySplit '-' d.langs with - | ⟨sl, rest⟩
        · rw [hsp] at h
          simp at h
        · rcases rest with - | ⟨tl, rest2⟩
          · rw [hsp] at h
            simp at h
          · rcases rest2 with - | ⟨x, r3⟩ <;> rw [hsp] at h <;> simp at h
      · exact spanLoop_true f d.tgt d.esa_spans [] [] [] czero ss es ts c hl

theorem processDatum_emitted (f : Bool) (s2t : String → Option String) (d : Datum)
    (row : Row) (ts : List String) (c : Counter)
    (h : processDatum f s2t d = some (.emitted row ts c)) :
    ∃ ref sl tl, s2t d.src = some ref ∧ pySplit '-' d.langs = [sl, tl] ∧
      row = ⟨d.doc_id, d.line_id, sl, tl, "official", d.system, d.src, d.tgt, ref,
             d.domain, "ESA", pyJoin ' ' (finalTriple d).1, pyJoin ' ' (finalTriple d).2.1,
             pyJoin ' ' (finalTriple d).2.2⟩ ∧
      ts = (finalTriple d).2.2 ∧
      (∀ sp ∈ d.esa_spans, assert_span_type sp = true) ∧
      (∀ sp ∈ d.esa_spans, (f && is_invalid_span sp d.tgt) = false) ∧
      (d.esa_spans = [] → c = czero) := by
  unfold processDatum at h
  rcases hs : s2t d.src with - | ref
  · rw [hs] at h
    simp at h
  · rw [hs] at h
    rcases hl : spanLoop f d.tgt d.esa_spans ([], [], [], czero) with - | ⟨flag, ss, es, ts0, c0⟩
    · rw [hl] at h
      simp at h
    · rw [hl] at h
      cases flag
      · simp only at h
        obtain ⟨e1, e2, e3, h4, h5⟩ :=
          spanLoop_false f d.tgt d.esa_spans [] [] [] czero ss es ts0 c0 hl
        simp only [List.nil_append] at e1 e2 e3
        rcases hsp : pySplit '-' d.langs with - | ⟨sl, rest⟩
        · rw [hsp] at h
          simp at h
        · rcases rest with - | ⟨tl, rest2⟩
          · rw [hsp] at h
            simp at h
          · rcases rest2 with - | ⟨x, r3⟩
            · rw [hsp] at h
              simp only [Option.some_inj, DatumResult.emitted.injEq] at h
              obtain ⟨hrow, hts, hc⟩ := h
              refine ⟨ref, sl, tl, rfl, rfl, ?_, ?_, h4, h5, ?_⟩
              · rw [← hrow]
                subst e1 e2 e3
                unfold finalTriple rawTriple
                by_cases hz : d.esa_spans = []
                · simp [hz]
                · have hlen : (d.esa_spans.map (fun sp => pyStr sp.start_i)).length ≠ 0 := by
                    simp [hz]
                  simp [hz, hlen]
              · rw [← hts]
                subst e1 e2 e3
                unfold finalTriple rawTriple
                by_cases hz : d.esa_spans = []
                · simp [hz]
                · have hlen : (d.esa_spans.map (fun sp => pyStr sp.start_i)).length ≠ 0 := by
                    simp [hz]
                  simp [hz, hlen]
              · intro hz
                rw [← hc]
                rw [hz] at hl
                simp only [spanLoop, Option.some_inj, Prod.mk.injEq] at hl
                exact hl.2.2.2.2.symm
            · rw [hsp] at h
              simp at h
      · simp at h

/-- C5.  The normalizer is never applied on the main path: the start-index,
end-index and error-type fields of an emitted row are exactly the
space-joined stringified raw bounds and raw severities of the selected
record's spans, position by position — no clamping, no swapping, no
zero-length collapse, no critical rewrite. -/
theorem emitted_rows_carry_raw_spans (f : Bool) (s2t : String → Option String) (d : Datum)
    (row : Row) (ts : List String) (c : Counter)
    (hm : processDatum f s2t d = some (.emitted row ts c)) (hne : d.esa_spans ≠ []) :
    row.start_indices = pyJoin ' ' (d.esa_spans.map (fun sp => pyStr sp.start_i)) ∧
    row.end_indices = pyJoin ' ' (d.esa_spans.map (fun sp => pyStr sp.end_i)) ∧
    row.error_types = pyJoin ' ' (d.esa_spans.map (fun sp => sp.severity)) := by
  obtain ⟨ref, sl, tl, -, -, hrow, -, -, -, -⟩ := processDatum_emitted f s2t d row ts c hm
  subst hrow
  unfold finalTriple rawTriple
  rw [if_neg hne]
  exact ⟨rfl, rfl, rfl⟩

/-- Witness for C5: a reversed, out-of-range span with filtering disabled
appears verbatim in the emitted row. -/
theorem emitted_rows_carry_raw_spans_witness :
    wRawRow.start_indices = pyJoin ' ' (wRawDatum.esa_spans.map (fun sp => pyStr sp.start_i)) ∧
    wRawRow.end_indices = pyJoin ' ' (wRawDatum.esa_spans.map (fun sp => pyStr sp.end_i)) ∧
    wRawRow.error_types = pyJoin ' ' (wRawDatum.esa_spans.map (fun sp => sp.severity)) :=
  emitted_rows_carry_raw_spans false wLookup wRawDatum wRawRow ["major"]
    (cinc czero "major") rfl (by simp [wRawDatum])

/-- C8.  Scenario B: the span with start 4, end 4, severity minor
normalizes to the missing/missing sentinel with severity minor; and inside
the span loop a zero-length span bumps the "missing" counter bucket and
leaves the "minor" bucket untouched. -/
theorem zero_length_span_to_missing :
    (∀ hypothesis, correct_span ⟨.int 4, .int 4, "minor"⟩ hypothesis =
        some ⟨.str "missing", .str "missing", "minor"⟩) ∧
    (∀ (f : Bool) (tgt : String) (sp : ESASpan) (rest : List ESASpan)
       (ss es ts : List String) (c : Counter),
       sp.start_i = sp.end_i →
       assert_span_type sp = true →
       (f && is_invalid_span sp tgt) = false →
       spanLoop f tgt (sp :: rest) (ss, es, ts, c) =
         spanLoop f tgt rest (ss ++ [pyStr sp.start_i], es ++ [pyStr sp.end_i],
           ts ++ [sp.severity], cinc c "missing") ∧
       cinc c "missing" "missing" = c "missing" + 1 ∧
       cinc c "missing" "minor" = c "minor") := by
  constructor
  · intro hypothesis
    simp [correct_span, pyGt]
  · intro f tgt sp rest ss es ts c hst ha hf
    refine ⟨?_, ?_, ?_⟩
    · simp [spanLoop, if_pos ha, hf, hst]
    · simp [cinc]
    · simp [cinc]

/-- Witness for C8: the concrete scenario-B span on the hypothesis "ab". -/
theorem zero_length_span_to_missing_witness :
    correct_span ⟨.int 4, .int 4, "minor"⟩ "ab" =
      some ⟨.str "missing", .str "missing", "minor"⟩ ∧
    cinc czero "missing" "missing" = czero "missing" + 1 ∧
    cinc czero "missing" "minor" = czero "minor" :=
  ⟨zero_length_span_to_missing.1 "ab",
   (zero_length_span_to_missing.2 false "ab" ⟨.int 4, .int 4, "minor"⟩ [] [] [] [] czero
     rfl (by decide) (by decide)).2⟩

theorem processDatum_emitted_qual (f : Bool) (s2t : String → Option String) (d : Datum)
    (row : Row) (ts : List String) (c : Counter)
    (h : processDatum f s2t d = some (.emitted row ts c)) : qualB f s2t d = true := by
  obtain ⟨ref, sl, tl, hs, -, -, -, -, h5, -⟩ := processDatum_emitted f s2t d row ts c h
  unfold qualB
  rw [hs]
  simp only [Option.isSome_some, Bool.true_and, Bool.or_eq_true, Bool.not_eq_true']
  cases hf : f with
  | false => exact Or.inl rfl
  | true =>
    refine Or.inr (List.all_eq_true.mpr ?_)
    intro sp hsp
    have := h5 sp hsp
    rw [hf, Bool.true_and] at this
    simp [this]

theorem processSignatureList_emit_first (f : Bool) (s2t : String → Option String)
    (group : List Datum) (row : Row) (ts : List String) (c : Counter) (k : Nat)
    (h : processSignatureList f s2t group = some (some (row, ts, c), k)) :
    (group.find? (qualB f s2t)).isSome = true ∧
    ∀ d, group.find? (qualB f s2t) = some d →
      processDatum f s2t d = some (.emitted row ts c) := by
  induction group generalizing k with
  | nil => simp [processSignatureList] at h
  | cons d0 rest ih =>
    unfold processSignatureList at h
    rcases hd : processDatum f s2t d0 with - | res
    · rw [hd] at h
      simp at h
    · rw [hd] at h
      cases res with
      | noRef =>
        have hq : qualB f s2t d0 = false := by
          unfold qualB
          rw [processDatum_noRef f s2t d0 hd]
          rfl
        rw [List.find?_cons_of_neg _ (by simp [hq])]
        rcases hr : processSignatureList f s2t rest with - | ⟨r, kk⟩
        · rw [hr] at h
          simp at h
        · rw [hr] at h
          simp only [Option.some_inj, Prod.mk.injEq] at h
          rw [h.1] at hr
          exact ih kk hr
      | invalidSkip =>
        have hq : qualB f s2t d0 = false := by
          obtain ⟨hf, sp, hsp, hinv⟩ := processDatum_invalidSkip f s2t d0 hd
          unfold qualB
          rw [hf]
          simp only [Bool.not_true, Bool.false_or]
          have : d0.esa_spans.all (fun sp => !is_invalid_span sp d0.tgt) = false := by
            rw [List.all_eq_false]
            exact ⟨sp, hsp, by simp [hinv]⟩
          rw [this, Bool.and_false]
        rw [List.find?_cons_of_neg _ (by simp [hq])]
        rcases hr : processSignatureList f s2t rest with - | ⟨r, kk⟩
        · rw [hr] at h
          simp at h
        · rw [hr] at h
          simp only [Option.some_inj, Prod.mk.injEq] at h
          rw [h.1] at hr
          exact ih kk hr
      | emitted row0 ts0 c0 =>
        simp only [Option.some_inj, Prod.mk.injEq] at h
        obtain ⟨⟨rfl, rfl, rfl⟩, -⟩ := h
        rw [List.find?_cons_of_pos _ (processDatum_emitted_qual f s2t d0 _ _ _ hd)]
        exact ⟨rfl, fun d hdd => by rw [← Option.some_inj.mp hdd]; exact hd⟩

theorem processSignatureList_emit_mem (f : Bool) (s2t : String → Option String)
    (group : List Datum) (row : Row) (ts : List String) (c : Counter) (k : Nat)
    (h : processSignatureList f s2t group = some (some (row, ts, c), k)) :
    ∃ d ∈ group, processDatum f s2t d = some (.emitted row ts c) := by
  obtain ⟨h1, h2⟩ := processSignatureList_emit_first f s2t group row ts c k h
  rcases hfind : group.find? (qualB f s2t) with - | d
  · rw [hfind] at h1
    simp at h1
  · exact ⟨d, List.mem_of_find?_eq_some hfind, h2 d hfind⟩

theorem appendGroup_map_fst_mem {α : Type} (gs : List (String × List α)) (key k : String)
    (x : α) : k ∈ (appendGroup gs key x).map Prod.fst ↔ k ∈ gs.map Prod.fst ∨ k = key := by
  induction gs with
  | nil => simp [appendGroup]
  | cons p rest ih =>
    obtain ⟨k0, l⟩ := p
    by_cases h : k0 = key <;> simp [appendGroup, h, ih] <;> tauto

theorem appendGroup_nodup {α : Type} (gs : List (String × List α)) (key : String) (x : α)
    (h : (gs.map Prod.fst).Nodup) : ((appendGroup gs key x).map Prod.fst).Nodup := by
  induction gs with
  | nil => simp [appendGroup]
  | cons p rest ih =>
    obtain ⟨k0, l⟩ := p
    simp only [List.map_cons, List.nodup_cons] at h
    by_cases hk : k0 = key
    · subst hk
      simp only [appendGroup, eq_self_iff_true, if_true, List.map_cons, List.nodup_cons]
      exact ⟨h.1, h.2⟩
    · simp only [appendGroup, hk, if_false, List.map_cons, List.nodup_cons]
      refine ⟨?_, ih h.2⟩
      rw [appendGroup_map_fst_mem]
      rintro (hc | hc)
      · exact h.1 hc
      · exact hk hc

theorem appendGroup_entry_src {α : Type} (gs : List (String × List α)) (key : String)
    (x : α) : ∀ q ∈ appendGroup gs key x, ∀ y ∈ q.2,
      (∃ q' ∈ gs, q'.1 = q.1 ∧ y ∈ q'.2) ∨ (y = x ∧ q.1 = key) := by
  induction gs with
  | nil =>
    intro q hq y hy
    simp only [appendGroup, List.mem_singleton] at hq
    subst hq
    simp only [List.mem_singleton] at hy
    exact Or.inr ⟨hy, rfl⟩
  | cons p rest ih =>
    obtain ⟨k0, l⟩ := p
    intro q hq y hy
    by_cases hk : k0 = key
    · rw [appendGroup, if_pos hk] at hq
      rcases List.mem_cons.mp hq with rfl | hq
      · rcases List.mem_append.mp hy with hl | hx
        · exact Or.inl ⟨(k0, l), List.mem_cons_self _ _, rfl, hl⟩
        · simp only [List.mem_singleton] at hx
          exact Or.inr ⟨hx, hk⟩
      · exact Or.inl ⟨q, List.mem_cons_of_mem _ hq, rfl, hy⟩
    · rw [appendGroup, if_neg hk] at hq
      rcases List.mem_cons.mp hq with rfl | hq
      · exact Or.inl ⟨(k0, l), List.mem_cons_self _ _, rfl, hy⟩
      · rcases ih q hq y hy with ⟨q', hq', he, hm⟩ | hx
        · exact Or.inl ⟨q', List.mem_cons_of_mem _ hq', he, hm⟩
        · exact Or.inr hx

theorem appendGroup2_map_fst_mem (gs : LangsGroups) (langs sig k : String) (d : Datum) :
    k ∈ (appendGroup2 gs langs sig d).map Prod.fst ↔ k ∈ gs.map Prod.fst ∨ k = langs := by
  induction gs with
  | nil => simp [appendGroup2]
  | cons p rest ih =>
    obtain ⟨k0, inner⟩ := p
    by_cases h : k0 = langs <;> simp [appendGroup2, h, ih] <;> tauto

theorem appendGroup2_entry (gs : LangsGroups) (langs sig : String) (d : Datum) :
    ∀ p ∈ appendGroup2 gs langs sig d,
      (∃ p' ∈ gs, p'.1 = p.1 ∧ p.2 = p'.2)
      ∨ (p.1 = langs ∧ ∃ p' ∈ gs, p'.1 = p.1 ∧ p.2 = appendGroup p'.2 sig d)
      ∨ (p = (langs, [(sig, [d])]) ∧ langs ∉ gs.map Prod.fst) := by
  induction gs with
  | nil =>
    intro p hp
    simp only [appendGroup2, List.mem_singleton] at hp
    subst hp
    exact Or.inr (Or.inr ⟨rfl, by simp⟩)
  | cons hd rest ih =>
    obtain ⟨k0, inner⟩ := hd
    intro p hp
    by_cases hk : k0 = langs
    · rw [appendGroup2, if_pos hk] at hp
      rcases List.mem_cons.mp hp with rfl | hp
      · exact Or.inr (Or.inl ⟨hk, (k0, inner), List.mem_cons_self _ _, rfl, rfl⟩)
      · exact Or.inl ⟨p, List.mem_cons_of_mem _ hp, rfl, rfl⟩
    · rw [appendGroup2, if_neg hk] at hp
      rcases List.mem_cons.mp hp with rfl | hp
      · exact Or.inl ⟨(k0, inner), List.mem_cons_self _ _, rfl, rfl⟩
      · rcases ih p hp with ⟨p', hp', he, hm⟩ | ⟨he, p', hp', he2, hm⟩ | ⟨he, hm⟩
        · exact Or.inl ⟨p', List.mem_cons_of_mem _ hp', he, hm⟩
        · exact Or.inr (Or.inl ⟨he, p', List.mem_cons_of_mem _ hp', he2, hm⟩)
        · refine Or.inr (Or.inr ⟨he, ?_⟩)
          simp only [List.map_cons, List.mem_cons, not_or]
          exact ⟨fun hc => hk hc.symm, hm⟩

theorem appendGroup2_mem (gs : LangsGroups) (langs sig : String) (d x : Datum)
    (h : memGroups x (appendGroup2 gs langs sig d)) : memGroups x gs ∨ x = d := by
  obtain ⟨p, hp, q, hq, hx⟩ := h
  rcases appendGroup2_entry gs langs sig d p hp with ⟨p', hp', he, hm⟩ | ⟨-, p', hp', he, hm⟩ | ⟨he, -⟩
  · exact Or.inl ⟨p', hp', q, hm ▸ hq, hx⟩
  · rw [hm] at hq
    rcases appendGroup_entry_src p'.2 sig d q hq x hx with ⟨q', hq', -, hm2⟩ | ⟨hx2, -⟩
    · exact Or.inl ⟨p', hp', q', hq', hm2⟩
    · exact Or.inr hx2
  · rw [he] at hq
    simp only [List.mem_singleton] at hq
    subst hq
    simp only [List.mem_singleton] at hx
    exact Or.inr hx

theorem appendGroup2_wf (gs : LangsGroups) (d : Datum) (hwf : groupsWF gs) :
    groupsWF (appendGroup2 gs d.langs (signature d) d) := by
  obtain ⟨hnd, hinner⟩ := hwf
  constructor
  · induction gs with
    | nil => simp [appendGroup2]
    | cons p rest ih =>
      obtain ⟨k0, inner⟩ := p
      simp only [List.map_cons, List.nodup_cons] at hnd
      by_cases hk : k0 = d.langs
      · subst hk
        simp only [appendGroup2, eq_self_iff_true, if_true, List.map_cons, List.nodup_cons]
        exact ⟨hnd.1, hnd.2⟩
      · simp only [appendGroup2, hk, if_false, List.map_cons, List.nodup_cons]
        refine ⟨?_, ih hnd.2 (fun p hp => hinner p (List.mem_cons_of_mem _ hp))⟩
        rw [appendGroup2_map_fst_mem]
        rintro (hc | hc)
        · exact hnd.1 hc
        · exact hk hc
  · intro p hp
    rcases appendGroup2_entry gs d.langs (signature d) d p hp with
      ⟨p', hp', he, hm⟩ | ⟨he, p', hp', he2, hm⟩ | ⟨he, -⟩
    · obtain ⟨h1, h2⟩ := hinner p' hp'
      rw [hm]
      exact ⟨h1, fun q hq x hx => by
        obtain ⟨e1, e2⟩ := h2 q hq x hx
        exact ⟨by rw [e1, he], e2⟩⟩
    · obtain ⟨h1, h2⟩ := hinner p' hp'
      rw [hm]
      constructor
      · exact appendGroup_nodup p'.2 (signature d) d h1
      · intro q hq x hx
        rcases appendGroup_entry_src p'.2 (signature d) d q hq x hx with
          ⟨q', hq', hqe, hm2⟩ | ⟨hx2, hq2⟩
        · obtain ⟨e1, e2⟩ := h2 q' hq' x hm2
          exact ⟨by rw [e1, he2, he], by rw [e2, hqe]⟩
        · subst hx2
          exact ⟨he.symm, by rw [hq2]⟩
    · rw [he]
      constructor
      · simp
      · intro q hq x hx
        simp only [List.mem_singleton] at hq
        subst hq
        simp only [List.mem_singleton] at hx
        subst hx
        exact ⟨rfl, rfl⟩

theorem groupAux_wf (input : List Datum) (gs : LangsGroups) (cnt : Nat)
    (gs' : LangsGroups) (cnt' : Nat) (h : groupAux input gs cnt = some (gs', cnt'))
    (hwf : groupsWF gs) : groupsWF gs' := by
  induction input generalizing gs cnt with
  | nil =>
    simp only [groupAux, Option.some_inj, Prod.mk.injEq] at h
    exact h.1 ▸ hwf
  | cons d rest ih =>
    unfold groupAux at h
    by_cases hsrc : d.src.length = 0
    · rw [if_pos hsrc] at h
      simp at h
    · rw [if_neg hsrc] at h
      by_cases htgt : d.tgt.length = 0
      · rw [if_pos htgt] at h
        exact ih _ _ h hwf
      · rw [if_neg htgt] at h
        exact ih _ _ h (appendGroup2_wf gs d hwf)

theorem groupAux_mem (input : List Datum) (gs : LangsGroups) (cnt : Nat)
    (gs' : LangsGroups) (cnt' : Nat) (h : groupAux input gs cnt = some (gs', cnt')) :
    ∀ x, memGroups x gs' → memGroups x gs ∨ (x ∈ input ∧ x.tgt.length ≠ 0) := by
  induction input generalizing gs cnt with
  | nil =>
    simp only [groupAux, Option.some_inj, Prod.mk.injEq] at h
    exact fun x hx => Or.inl (h.1 ▸ hx)
  | cons d rest ih =>
    unfold groupAux at h
    by_cases hsrc : d.src.length = 0
    · rw [if_pos hsrc] at h
      simp at h
    · rw [if_neg hsrc] at h
      by_cases htgt : d.tgt.length = 0
      · rw [if_pos htgt] at h
        intro x hx
        rcases ih _ _ h x hx with hm | ⟨hi, hn⟩
        · exact Or.inl hm
        · exact Or.inr ⟨List.mem_cons_of_mem _ hi, hn⟩
      · rw [if_neg htgt] at h
        intro x hx
        rcases ih _ _ h x hx with hm | ⟨hi, hn⟩
        · rcases appendGroup2_mem gs d.langs (signature d) d x hm with hm2 | rfl
          · exact Or.inl hm2
          · exact Or.inr ⟨List.mem_cons_self _ _, htgt⟩
        · exact Or.inr ⟨List.mem_cons_of_mem _ hi, hn⟩

theorem groupAux_filter (input : List Datum) (gs : LangsGroups) (cnt : Nat)
    (gs' : LangsGroups) (cnt' : Nat) (h : groupAux input gs cnt = some (gs', cnt')) :
    cnt' = cnt + (input.filter (fun d => decide (d.tgt.length = 0))).length ∧
    groupAux (input.filter (fun d => !decide (d.tgt.length = 0))) gs 0 = some (gs', 0) := by
  induction input generalizing gs cnt with
  | nil =>
    simp only [groupAux, Option.some_inj, Prod.mk.injEq] at h
    simp [groupAux, h.1, h.2]
  | cons d rest ih =>
    unfold groupAux at h
    by_cases hsrc : d.src.length = 0
    · rw [if_pos hsrc] at h
      simp at h
    · rw [if_neg hsrc] at h
      by_cases htgt : d.tgt.length = 0
      · rw [if_pos htgt] at h
        obtain ⟨h1, h2⟩ := ih _ _ h
        constructor
        · rw [h1]
          simp [List.filter, htgt]
          omega
        · simpa [List.filter, htgt] using h2
      · rw [if_neg htgt] at h
        obtain ⟨h1, h2⟩ := ih _ _ h
        constructor
        · rw [h1]
          simp [List.filter, htgt]
        · have hb : (!decide (d.tgt.length = 0)) = true := by simp [htgt]
          rw [List.filter_cons, if_pos hb]
          simp only [groupAux]
          rw [if_neg hsrc, if_neg htgt]
          exact h2

theorem emitted_rowSig (f : Bool) (s2t : String → Option String) (d : Datum)
    (row : Row) (ts : List String) (c : Counter)
    (h : processDatum f s2t d = some (.emitted row ts c)) : rowSig row = signature d := by
  obtain ⟨ref, sl, tl, -, -, hrow, -⟩ := processDatum_emitted f s2t d row ts c h
  subst hrow
  rfl

theorem emitted_rowLangs (f : Bool) (s2t : String → Option String) (d : Datum)
    (row : Row) (ts : List String) (c : Counter)
    (h : processDatum f s2t d = some (.emitted row ts c)) : rowLangs row = d.langs := by
  obtain ⟨ref, sl, tl, -, hsp, hrow, -⟩ := processDatum_emitted f s2t d row ts c h
  subst hrow
  rw [pySplit_two '-' d.langs sl tl hsp]
  rfl

theorem processSignatures_row_mem (f : Bool) (s2t : String → Option String)
    (sigs : SigGroups) (r : LangsResult) (h : processSignatures f s2t sigs = some r) :
    ∀ row ∈ r.rows, ∃ q ∈ sigs, ∃ d ∈ q.2, ∃ ts c,
      processDatum f s2t d = some (.emitted row ts c) := by
  induction sigs generalizing r with
  | nil =>
    simp only [processSignatures, Option.some_inj] at h
    subst h
    simp
  | cons p rest ih =>
    obtain ⟨sig0, group⟩ := p
    unfold processSignatures at h
    rcases hg : processSignatureList f s2t group with - | ⟨emit, skips⟩
    · rw [hg] at h
      simp at h
    · rw [hg] at h
      rcases hr : processSignatures f s2t rest with - | r0
      · rw [hr] at h
        simp at h
      · rw [hr] at h
        cases emit with
        | none =>
          simp only [Option.some_inj] at h
          subst h
          intro row hrow
          obtain ⟨q, hq, rest2⟩ := ih r0 hr row hrow
          exact ⟨q, List.mem_cons_of_mem _ hq, rest2⟩
        | some rc =>
          obtain ⟨row0, ts0, c0⟩ := rc
          simp only [Option.some_inj] at h
          subst h
          intro row hrow
          rcases List.mem_cons.mp hrow with rfl | hrow
          · obtain ⟨d, hd, hemit⟩ :=
              processSignatureList_emit_mem f s2t group row ts0 c0 skips hg
            exact ⟨(sig0, group), List.mem_cons_self _ _, d, hd, ts0, c0, hemit⟩
          · obtain ⟨q, hq, rest2⟩ := ih r0 hr row hrow
            exact ⟨q, List.mem_cons_of_mem _ hq, rest2⟩

theorem processSignatures_pairwise (f : Bool) (s2t : String → Option String)
    (sigs : SigGroups) (r : LangsResult) (h : processSignatures f s2t sigs = some r)
    (hnd : (sigs.map Prod.fst).Nodup)
    (hsig : ∀ q ∈ sigs, ∀ d ∈ q.2, signature d = q.1) :
    (∀ row ∈ r.rows, rowSig row ∈ sigs.map Prod.fst) ∧
    r.rows.Pairwise (fun r1 r2 => rowSig r1 ≠ rowSig r2) := by
  induction sigs generalizing r with
  | nil =>
    simp only [processSignatures, Option.some_inj] at h
    subst h
    simp
  | cons p rest ih =>
    obtain ⟨sig0, group⟩ := p
    unfold processSignatures at h
    rcases hg : processSignatureList f s2t group with - | ⟨emit, skips⟩
    · rw [hg] at h
      simp at h
    · rw [hg] at h
      rcases hr : processSignatures f s2t rest with - | r0
      · rw [hr] at h
        simp at h
      · rw [hr] at h
        simp only [List.map_cons, List.nodup_cons] at hnd
        have hsig2 : ∀ q ∈ rest, ∀ d ∈ q.2, signature d = q.1 :=
          fun q hq => hsig q (List.mem_cons_of_mem _ hq)
        obtain ⟨ihmem, ihpw⟩ := ih r0 hr hnd.2 hsig2
        cases emit with
        | none =>
          simp only [Option.some_inj] at h
          subst h
          exact ⟨fun row hrow => List.mem_cons_of_mem _ (ihmem row hrow), ihpw⟩
        | some rc =>
          obtain ⟨row0, ts0, c0⟩ := rc
          simp only [Option.some_inj] at h
          subst h
          have hs0 : rowSig row0 = sig0 := by
            obtain ⟨d, hd, hemit⟩ :=
              processSignatureList_emit_mem f s2t group row0 ts0 c0 skips hg
            rw [emitted_rowSig f s2t d row0 ts0 c0 hemit]
            exact hsig (sig0, group) (List.mem_cons_self _ _) d hd
          constructor
          · intro row hrow
            rcases List.mem_cons.mp hrow with rfl | hrow
            · exact hs0 ▸ List.mem_cons_self _ _
            · exact List.mem_cons_of_mem _ (ihmem row hrow)
          · refine List.Pairwise.cons ?_ ihpw
            intro row2 hrow2 hc
            apply hnd.1
            rw [← hs0, hc]
            exact ihmem row2 hrow2

theorem groupsWF_nil : groupsWF [] := by
  constructor
  · simp
  · intro p hp
    simp at hp

theorem groupsWF_tail (p : String × SigGroups) (rest : LangsGroups)
    (h : groupsWF (p :: rest)) : groupsWF rest := by
  obtain ⟨hnd, hinner⟩ := h
  simp only [List.map_cons, List.nodup_cons] at hnd
  exact ⟨hnd.2, fun q hq => hinner q (List.mem_cons_of_mem _ hq)⟩

theorem processAllLangs_row_mem (f : Bool) (corpus : String → List RefEntry)
    (gs : LangsGroups) (rows : List Row) (stats : List (String × Counter))
    (inv skipped : Nat)
    (h : processAllLangs f corpus gs = some (rows, stats, inv, skipped)) :
    ∀ row ∈ rows, ∃ s2t d ts c, memGroups d gs ∧
      processDatum f s2t d = some (.emitted row ts c) := by
  induction gs generalizing rows stats inv skipped with
  | nil =>
    simp only [processAllLangs, Option.some_inj, Prod.mk.injEq] at h
    obtain ⟨h1, -⟩ := h
    subst h1
    simp
  | cons p rest ih =>
    obtain ⟨langs0, sigs0⟩ := p
    unfold processAllLangs at h
    split at h
    · intro row hrow
      obtain ⟨s2t, d, ts, c, hm, he⟩ := ih rows stats inv skipped h row hrow
      obtain ⟨pp, hpp, rest2⟩ := hm
      exact ⟨s2t, d, ts, c, ⟨pp, List.mem_cons_of_mem _ hpp, rest2⟩, he⟩
    · rename_i code hc
      split at h
      · simp at h
      · rename_i r hg
        split at h
        · simp at h
        · rename_i res rows0 stats0 inv0 skipped0 hr
          simp only [Option.some_inj, Prod.mk.injEq] at h
          obtain ⟨h1, -⟩ := h
          subst h1
          intro row hrow
          rcases List.mem_append.mp hrow with hl | hrr
          · obtain ⟨q, hq, d, hd, ts, c, he⟩ :=
              processSignatures_row_mem f (build_src_to_tgt (corpus code)) sigs0 r hg row hl
            exact ⟨build_src_to_tgt (corpus code), d, ts, c,
              ⟨(langs0, sigs0), List.mem_cons_self _ _, q, hq, hd⟩, he⟩
          · obtain ⟨s2t, d, ts, c, hm, he⟩ := ih rows0 stats0 inv0 skipped0 hr row hrr
            obtain ⟨pp, hpp, rest2⟩ := hm
            exact ⟨s2t, d, ts, c, ⟨pp, List.mem_cons_of_mem _ hpp, rest2⟩, he⟩

theorem processAllLangs_pairwise (f : Bool) (corpus : String → List RefEntry)
    (gs : LangsGroups) (rows : List Row) (stats : List (String × Counter))
    (inv skipped : Nat)
    (h : processAllLangs f corpus gs = some (rows, stats, inv, skipped))
    (hwf : groupsWF gs) :
    (∀ row ∈ rows, rowLangs row ∈ gs.map Prod.fst) ∧
    rows.Pairwise (fun r1 r2 => rowLangs r1 ≠ rowLangs r2 ∨ rowSig r1 ≠ rowSig r2) := by
  induction gs generalizing rows stats inv skipped with
  | nil =>
    simp only [processAllLangs, Option.some_inj, Prod.mk.injEq] at h
    obtain ⟨h1, -⟩ := h
    subst h1
    simp
  | cons p rest ih =>
    obtain ⟨langs0, sigs0⟩ := p
    have hwfrest := groupsWF_tail (langs0, sigs0) rest hwf
    unfold processAllLangs at h
    split at h
    · obtain ⟨hmem, hpw⟩ := ih rows stats inv skipped h hwfrest
      exact ⟨fun row hrow => List.mem_cons_of_mem _ (hmem row hrow), hpw⟩
    · rename_i code hc
      split at h
      · simp at h
      · rename_i r hg
        split at h
        · simp at h
        · rename_i res rows0 stats0 inv0 skipped0 hr
          simp only [Option.some_inj, Prod.mk.injEq] at h
          obtain ⟨h1, -⟩ := h
          subst h1
          obtain ⟨hmem0, hpw0⟩ := ih rows0 stats0 inv0 skipped0 hr hwfrest
          obtain ⟨hndhead, hinner⟩ := hwf
          simp only [List.map_cons, List.nodup_cons] at hndhead
          obtain ⟨hinnd, hinn⟩ := hinner (langs0, sigs0) (List.mem_cons_self _ _)
          have hrowlangs : ∀ row ∈ r.rows, rowLangs row = langs0 := by
            intro row hrow
            obtain ⟨q, hq, d, hd, ts, c, he⟩ :=
              processSignatures_row_mem f (build_src_to_tgt (corpus code)) sigs0 r hg row hrow
            rw [emitted_rowLangs f (build_src_to_tgt (corpus code)) d row ts c he]
            exact (hinn q hq d hd).1
          constructor
          · intro row hrow
            rcases List.mem_append.mp hrow with hl | hrr
            · rw [hrowlangs row hl]
              exact List.mem_cons_self _ _
            · exact List.mem_cons_of_mem _ (hmem0 row hrr)
          · rw [List.pairwise_append]
            refine ⟨?_, hpw0, ?_⟩
            · have hsigs : ∀ q ∈ sigs0, ∀ d ∈ q.2, signature d = q.1 :=
                fun q hq d hd => (hinn q hq d hd).2
              obtain ⟨-, hpwsig⟩ :=
                processSignatures_pairwise f (build_src_to_tgt (corpus code)) sigs0 r hg
                  hinnd hsigs
              exact hpwsig.imp (fun hne => Or.inr hne)
            · intro r1 hr1 r2 hr2
              left
              rw [hrowlangs r1 hr1]
              intro hcontra
              apply hndhead.1
              rw [hcontra]
              exact hmem0 r2 hr2

theorem mainRun_row_datum (f : Bool) (corpus : String → List RefEntry)
    (input : List Datum) (out : MainOut) (h : mainRun f corpus input = some out) :
    ∀ row ∈ out.rows, ∃ s2t d ts c, d ∈ input ∧ d.tgt.length ≠ 0 ∧
      processDatum f s2t d = some (.emitted row ts c) := by
  unfold mainRun at h
  split at h
  · simp at h
  · rename_i gs emptyCnt hgrp
    split at h
    · simp at h
    · rename_i res rows stats inv skipped hpl
      simp only [Option.some_inj] at h
      subst h
      intro row hrow
      simp only at hrow
      obtain ⟨s2t, d, ts, c, hm, he⟩ :=
        processAllLangs_row_mem f corpus gs rows stats inv skipped hpl row hrow
      rcases groupAux_mem input [] 0 gs emptyCnt hgrp d hm with hm0 | ⟨hi, hn⟩
      · obtain ⟨p, hp, -⟩ := hm0
        simp at hp
      · exact ⟨s2t, d, ts, c, hi, hn, he⟩

theorem mainRun_rows_pairwise (f : Bool) (corpus : String → List RefEntry)
    (input : List Datum) (out : MainOut) (h : mainRun f corpus input = some out) :
    out.rows.Pairwise (fun r1 r2 => rowLangs r1 ≠ rowLangs r2 ∨ rowSig r1 ≠ rowSig r2) := by
  unfold mainRun at h
  split at h
  · simp at h
  · rename_i gs emptyCnt hgrp
    split at h
    · simp at h
    · rename_i res rows stats inv skipped hpl
      simp only [Option.some_inj] at h
      subst h
      exact (processAllLangs_pairwise f corpus gs rows stats inv skipped hpl
        (groupAux_wf input [] 0 gs emptyCnt hgrp groupsWF_nil)).2

theorem severity_no_space (sev : String)
    (h : sev = "major" ∨ sev = "minor" ∨ sev = "undecided") : ' ' ∉ sev.data := by
  rcases h with rfl | rfl | rfl <;> decide

theorem finalTriple_tokens (d : Datum)
    (hassert : ∀ sp ∈ d.esa_spans, assert_span_type sp = true) :
    pySplit ' ' (pyJoin ' ' (finalTriple d).1) = (finalTriple d).1 ∧
    pySplit ' ' (pyJoin ' ' (finalTriple d).2.1) = (finalTriple d).2.1 ∧
    pySplit ' ' (pyJoin ' ' (finalTriple d).2.2) = (finalTriple d).2.2 ∧
    (finalTriple d).1.length = (finalTriple d).2.1.length ∧
    (finalTriple d).2.1.length = (finalTriple d).2.2.length ∧
    (∀ t ∈ (finalTriple d).2.2, t = "no-error" ∨ t = "major" ∨ t = "minor" ∨ t = "undecided") := by
  unfold finalTriple rawTriple
  by_cases hz : d.esa_spans = []
  · rw [if_pos hz]
    refine ⟨?_, ?_, ?_, rfl, rfl, ?_⟩
    · exact pySplit_pyJoin ' ' ["-1"] (by simp) (by decide)
    · exact pySplit_pyJoin ' ' ["-1"] (by simp) (by decide)
    · exact pySplit_pyJoin ' ' ["no-error"] (by simp) (by decide)
    · intro t ht
      simp only [List.mem_singleton] at ht
      exact Or.inl ht
  · rw [if_neg hz]
    have hmem : ∀ t ∈ d.esa_spans.map (fun sp => sp.severity),
        t = "no-error" ∨ t = "major" ∨ t = "minor" ∨ t = "undecided" := by
      intro t ht
      obtain ⟨sp, hsp, rfl⟩ := List.mem_map.mp ht
      exact Or.inr (assert_span_type_severity sp (hassert sp hsp))
    refine ⟨?_, ?_, ?_, by simp, by simp, hmem⟩
    · refine pySplit_pyJoin ' ' _ (by simpa using hz) ?_
      intro p hp
      obtain ⟨sp, hsp, rfl⟩ := List.mem_map.mp hp
      exact pyStr_no_space sp.start_i (assert_span_type_bounds sp (hassert sp hsp)).1
    · refine pySplit_pyJoin ' ' _ (by simpa using hz) ?_
      intro p hp
      obtain ⟨sp, hsp, rfl⟩ := List.mem_map.mp hp
      exact pyStr_no_space sp.end_i (assert_span_type_bounds sp (hassert sp hsp)).2
    · refine pySplit_pyJoin ' ' _ (by simpa using hz) ?_
      intro p hp
      rcases hmem p hp with rfl | rfl | rfl | rfl <;> decide

theorem emitted_hypothesis_segment (f : Bool) (s2t : String → Option String) (d : Datum)
    (row : Row) (ts : List String) (c : Counter)
    (h : processDatum f s2t d = some (.emitted row ts c)) :
    row.hypothesis_segment = d.tgt := by
  obtain ⟨ref, sl, tl, -, -, hrow, -⟩ := processDatum_emitted f s2t d row ts c h
  subst hrow
  rfl

/-- C1.  Per-signature deduplication: (i) across the whole run, at most one
row is produced per language pair and signature — any two distinct output
rows differ in language pair or in signature; (ii) an emitted row comes
from the first record of its signature group whose source has a reference
and which, under filtering, contains no invalid span; (iii) once a record
is emitted, the remaining records of the signature are never examined. -/
theorem dedup_first_qualifying_wins :
    (∀ (f : Bool) (corpus : String → List RefEntry) (input : List Datum) (out : MainOut),
       mainRun f corpus input = some out →
       out.rows.Pairwise (fun r1 r2 => rowLangs r1 ≠ rowLangs r2 ∨ rowSig r1 ≠ rowSig r2)) ∧
    (∀ (f : Bool) (s2t : String → Option String) (group : List Datum)
       (row : Row) (ts : List String) (c : Counter) (k : Nat),
       processSignatureList f s2t group = some (some (row, ts, c), k) →
       (group.find? (qualB f s2t)).isSome = true ∧
       ∀ d, group.find? (qualB f s2t) = some d →
         processDatum f s2t d = some (.emitted row ts c)) ∧
    (∀ (f : Bool) (s2t : String → Option String) (d : Datum) (row : Row)
       (ts : List String) (c : Counter) (rest : List Datum),
       processDatum f s2t d = some (.emitted row ts c) →
       processSignatureList f s2t (d :: rest) = some (some (row, ts, c), 0)) := by
  refine ⟨mainRun_rows_pairwise, processSignatureList_emit_first, ?_⟩
  intro f s2t d row ts c rest h
  unfold processSignatureList
  rw [h]

/-- Witness for C1 (scenario D): in a two-record signature group whose
first record has no reference, the first qualifying record is the second
one, and it is the record emitted. -/
theorem dedup_first_qualifying_wins_witness :
    List.find? (qualB false wLookup) [wNoRefDatum, wEmptySpansDatum] =
      some wEmptySpansDatum ∧
    processDatum false wLookup wEmptySpansDatum =
      some (.emitted wEmptySpansRow ["no-error"] czero) :=
  ⟨rfl, (dedup_first_qualifying_wins.2.1 false wLookup [wNoRefDatum, wEmptySpansDatum]
      wEmptySpansRow ["no-error"] czero 0 rfl).2 wEmptySpansDatum rfl⟩

/-- C6.  Every emitted row has the same number of space-separated tokens in
its start-index, end-index and error-type fields; a record contributing no
span tokens yields the sentinel fields "-1" / "-1" / "no-error" and bumps
the "no-error" statistics counter of its language pair by one. -/
theorem row_token_invariant :
    (∀ (f : Bool) (corpus : String → List RefEntry) (input : List Datum) (out : MainOut),
       mainRun f corpus input = some out → ∀ row ∈ out.rows,
       (pySplit ' ' row.start_indices).length = (pySplit ' ' row.end_indices).length ∧
       (pySplit ' ' row.end_indices).length = (pySplit ' ' row.error_types).length) ∧
    (∀ (f : Bool) (s2t : String → Option String) (d : Datum) (row : Row)
       (ts : List String) (c : Counter),
       processDatum f s2t d = some (.emitted row ts c) →
       d.esa_spans = [] →
       row.start_indices = "-1" ∧ row.end_indices = "-1" ∧
       row.error_types = "no-error" ∧
       ∀ stats, emitStats stats ts c "no-error" = stats "no-error" + 1) := by
  constructor
  · intro f corpus input out hmain row hrow
    obtain ⟨s2t, d, ts, c, -, -, he⟩ := mainRun_row_datum f corpus input out hmain row hrow
    obtain ⟨ref, sl, tl, -, -, hrowq, -, hassert, -⟩ :=
      processDatum_emitted f s2t d row ts c he
    obtain ⟨t1, t2, t3, l1, l2, -⟩ := finalTriple_tokens d hassert
    subst hrowq
    simp only
    rw [t1, t2, t3]
    exact ⟨l1, l2⟩
  · intro f s2t d row ts c he hz
    obtain ⟨ref, sl, tl, -, -, hrowq, hts, -, -, -⟩ :=
      processDatum_emitted f s2t d row ts c he
    subst hrowq
    rw [hts]
    unfold finalTriple
    rw [if_pos hz]
    refine ⟨rfl, rfl, rfl, ?_⟩
    intro stats
    simp [emitStats, cinc, caddN]

/-- Witness for C6: the concrete zero-span record yields the sentinel row
and an increment of the "no-error" counter. -/
theorem row_token_invariant_witness :
    wEmptySpansRow.start_indices = "-1" ∧ wEmptySpansRow.end_indices = "-1" ∧
    wEmptySpansRow.error_types = "no-error" ∧
    emitStats czero ["no-error"] czero "no-error" = czero "no-error" + 1 := by
  obtain ⟨h1, h2, h3, h4⟩ := row_token_invariant.2 false wLookup wEmptySpansDatum
    wEmptySpansRow ["no-error"] czero rfl rfl
  exact ⟨h1, h2, h3, h4 czero⟩

/-- C7.  A span with severity "critical" (with matching bound kinds, as the
data model requires) normalizes to severity "major"; and no emitted output
row ever contains the token "critical" among its error types — any record
carrying a "critical" span fails the type assertion, which aborts the run
before a row is written. -/
theorem critical_normalized_and_absent :
    (∀ (sp : ESASpan) (hypothesis : String),
       sp.severity = "critical" →
       ((∃ a b : Int, sp.start_i = .int a ∧ sp.end_i = .int b) ∨
        (sp.start_i = .str "missing" ∧ sp.end_i = .str "missing")) →
       ∃ t, correct_span sp hypothesis = some t ∧ t.severity = "major") ∧
    (∀ (f : Bool) (corpus : String → List RefEntry) (input : List Datum) (out : MainOut),
       mainRun f corpus input = some out →
       ∀ row ∈ out.rows, "critical" ∉ pySplit ' ' row.error_types) := by
  constructor
  · intro sp hypothesis hcrit hwf
    obtain ⟨si, ei, sev⟩ := sp
    simp only at hcrit hwf
    subst hcrit
    rcases hwf with ⟨a, b, rfl, rfl⟩ | ⟨rfl, rfl⟩
    · rcases correct_span_int_cases a b "critical" hypothesis with ⟨x, y, heq, -⟩ | heq <;>
        exact ⟨_, heq, rfl⟩
    · rcases correct_span_str_cases "missing" "missing" "critical" hypothesis with
        ⟨u, v, heq, -⟩ | heq <;> exact ⟨_, heq, rfl⟩
  · intro f corpus input out hmain row hrow
    obtain ⟨s2t, d, ts, c, -, -, he⟩ := mainRun_row_datum f corpus input out hmain row hrow
    obtain ⟨ref, sl, tl, -, -, hrowq, -, hassert, -⟩ :=
      processDatum_emitted f s2t d row ts c he
    obtain ⟨-, -, t3, -, -, hmem⟩ := finalTriple_tokens d hassert
    subst hrowq
    simp only
    rw [t3]
    intro hc
    rcases hmem "critical" hc with h | h | h | h <;> simp at h

/-- Witness for C7 (scenario A): the concrete critical span normalizes to
severity "major". -/
theorem critical_normalized_and_absent_witness :
    Option.map ESASpan.severity
      (correct_span ⟨.int 5, .int 3, "critical"⟩ "0123456789") = some "major" := by
  obtain ⟨t, ht, hsev⟩ := critical_normalized_and_absent.1 ⟨.int 5, .int 3, "critical"⟩
    "0123456789" rfl (Or.inl ⟨5, 3, rfl, rfl⟩)
  rw [ht]
  simp [hsev]

/-- C9.  Records with empty target text are excluded from grouping (and so
from every output row), each incrementing the empty-target skip counter
exactly once; deleting them from the input changes nothing else. -/
theorem empty_target_excluded :
    (∀ (input : List Datum) (gs : LangsGroups) (cnt : Nat),
       groupStage input = some (gs, cnt) →
       cnt = (input.filter (fun d => decide (d.tgt.length = 0))).length ∧
       groupStage (input.filter (fun d => !decide (d.tgt.length = 0))) = some (gs, 0)) ∧
    (∀ (f : Bool) (corpus : String → List RefEntry) (input : List Datum) (out : MainOut),
       mainRun f corpus input = some out →
       out.empty_target_skips =
         (input.filter (fun d => decide (d.tgt.length = 0))).length ∧
       ∀ row ∈ out.rows, row.hypothesis_segment ≠ "") := by
  constructor
  · intro input gs cnt h
    obtain ⟨h1, h2⟩ := groupAux_filter input [] 0 gs cnt h
    exact ⟨by simpa using h1, h2⟩
  · intro f corpus input out hmain
    constructor
    · unfold mainRun at hmain
      split at hmain
      · simp at hmain
      · rename_i gs emptyCnt hgrp
        split at hmain
        · simp at hmain
        · rename_i res rows stats inv skipped hpl
          simp only [Option.some_inj] at hmain
          subst hmain
          obtain ⟨h1, -⟩ := groupAux_filter input [] 0 gs emptyCnt hgrp
          simpa using h1
    · intro row hrow
      obtain ⟨s2t, d, ts, c, -, hn, he⟩ := mainRun_row_datum f corpus input out hmain row hrow
      rw [emitted_hypothesis_segment f s2t d row ts c he]
      intro hc
      apply hn
      rw [hc]
      rfl

/-- Witness for C9: a single empty-target record is counted once and its
removal leaves an empty grouping. -/
theorem empty_target_excluded_witness :
    (1 : Nat) = ([wEmptyTgtDatum].filter (fun d => decide (d.tgt.length = 0))).length ∧
    groupStage ([wEmptyTgtDatum].filter (fun d => !decide (d.tgt.length = 0))) =
      some ([], 0) :=
  empty_target_excluded.1 [wEmptyTgtDatum] [] 1 rfl

end WMT24
